import Mathlib

/-!
Verification of the llmReadPdf retrieval core against its specification.

The JavaScript source is shallowly embedded: JS strings are lists of
characters, JS numbers used as embedding coordinates are rationals, and
similarity scores (which involve Math.sqrt) live in the reals.  Fallible
JS code (throw) is modelled with Except; JS expressions that produce the
floating-point non-values NaN or Infinity are modelled with Option, where
none stands for a non-finite result.
-/

namespace LlmReadPdf

/-- A JS string, modelled as a list of characters. -/
abbrev Str := List Char

/-- The character class matched by the JS regex \s (and removed by
String.prototype.trim): ASCII whitespace, NBSP, the Unicode space
separators, the line separators and the BOM. -/
def isJsWS (c : Char) : Bool :=
  c == ' ' || c == '\t' || c == '\n' || c == '\r' || c.val == 11 || c.val == 12 ||
  c.val == 0xa0 || c.val == 0x1680 || (0x2000 ≤ c.val && c.val ≤ 0x200a) ||
  c.val == 0x2028 || c.val == 0x2029 || c.val == 0x202f || c.val == 0x205f ||
  c.val == 0x3000 || c.val == 0xfeff

/-- chunker.js line 10, text.replace with pattern \s+ and replacement
a single space: every maximal run of whitespace characters is replaced
by one space. -/
def collapseWS : Str → Str
  | [] => []
  | c :: cs =>
    if isJsWS c then
      match cs with
      | [] => [' ']
      | d :: _ => if isJsWS d then collapseWS cs else ' ' :: collapseWS cs
    else c :: collapseWS cs

/-- The character matched by the JS regex pattern in the second replace. -/
def isNL (c : Char) : Bool := c == '\n'

/-- chunker.js line 11, text.replace with a newline-run pattern and
replacement a single space. -/
def collapseNL : Str → Str
  | [] => []
  | c :: cs =>
    if isNL c then
      match cs with
      | [] => [' ']
      | d :: _ => if isNL d then collapseNL cs else ' ' :: collapseNL cs
    else c :: collapseNL cs

/-- Removal of trailing whitespace, the right half of
String.prototype.trim. -/
def trimEndWS : Str → Str
  | [] => []
  | c :: cs =>
    match trimEndWS cs with
    | [] => if isJsWS c then [] else [c]
    | r => c :: r

/-- String.prototype.trim: strip leading and trailing whitespace. -/
def jsTrim (l : Str) : Str := trimEndWS (l.dropWhile fun c => isJsWS c)

/-- chunker.js lines 8-13, function cleanText: collapse whitespace runs,
collapse newline runs, trim. -/
def cleanText (l : Str) : Str := jsTrim (collapseNL (collapseWS l))

/-! Normal form of cleanText output: every whitespace character is a plain
interior single space. -/

/-- Every whitespace character in the string is a plain space. -/
def allSpaceWS (l : Str) : Bool := l.all fun c => !isJsWS c || c == ' '

/-- No two adjacent whitespace characters. -/
def noAdjWS : Str → Bool
  | [] => true
  | [_] => true
  | a :: b :: t => !(isJsWS a && isJsWS b) && noAdjWS (b :: t)

/-- The first character, if any, is not whitespace. -/
def headNonWS : Str → Bool
  | [] => true
  | c :: _ => !isJsWS c

/-- The last character, if any, is not whitespace. -/
def lastNonWS (l : Str) : Bool :=
  match l.getLast? with
  | none => true
  | some c => !isJsWS c

/-- Whitespace-normal strings: exactly the fixed points of cleanText. -/
def wsNormal (l : Str) : Bool :=
  allSpaceWS l && noAdjWS l && headNonWS l && lastNonWS l

theorem collapseWS_cons_not {d : Char} (h : isJsWS d = false) (ds : Str) :
    collapseWS (d :: ds) = d :: collapseWS ds := by
  simp [collapseWS, h]

theorem noAdjWS_cons₂ {a b : Char} {t : Str} (h : (isJsWS a && isJsWS b) = false)
    (h2 : noAdjWS (b :: t) = true) : noAdjWS (a :: b :: t) = true := by
  simp [noAdjWS, h, h2]

theorem noAdjWS_tail {a : Char} {t : Str} (h : noAdjWS (a :: t) = true) :
    noAdjWS t = true := by
  cases t with
  | nil => rfl
  | cons b u => exact (Bool.and_eq_true_iff.mp h).2

theorem noAdjWS_cons_of {c : Char} {l : Str} (h : isJsWS c = false)
    (hl : noAdjWS l = true) : noAdjWS (c :: l) = true := by
  cases l with
  | nil => rfl
  | cons b t => exact noAdjWS_cons₂ (by simp [h]) hl

theorem collapseWS_allSpace : ∀ l : Str, allSpaceWS (collapseWS l) = true
  | [] => rfl
  | c :: cs => by
    by_cases h : isJsWS c
    · cases cs with
      | nil => simp [collapseWS, h, allSpaceWS]
      | cons d ds =>
        by_cases hd : isJsWS d
        · simpa [collapseWS, h, hd] using collapseWS_allSpace (d :: ds)
        · have ih := collapseWS_allSpace (d :: ds)
          simp_all [collapseWS, allSpaceWS]
    · have ih := collapseWS_allSpace cs
      simp_all [collapseWS, allSpaceWS]

theorem collapseWS_noAdj : ∀ l : Str, noAdjWS (collapseWS l) = true
  | [] => rfl
  | c :: cs => by
    by_cases h : isJsWS c
    · cases cs with
      | nil => simp [collapseWS, h, noAdjWS]
      | cons d ds =>
        by_cases hd : isJsWS d
        · rw [show collapseWS (c :: d :: ds) = collapseWS (d :: ds) by
            simp [collapseWS, h, hd]]
          exact collapseWS_noAdj (d :: ds)
        · have hd0 : isJsWS d = false := by simpa using hd
          rw [show collapseWS (c :: d :: ds) = ' ' :: collapseWS (d :: ds) by
            simp [collapseWS, h, hd]]
          rw [collapseWS_cons_not hd0]
          refine noAdjWS_cons₂ (by simp [hd0]) ?_
          rw [← collapseWS_cons_not hd0]
          exact collapseWS_noAdj (d :: ds)
    · have h0 : isJsWS c = false := by simpa using h
      rw [collapseWS_cons_not h0]
      exact noAdjWS_cons_of h0 (collapseWS_noAdj cs)

theorem collapseWS_eq_self : ∀ l : Str, allSpaceWS l = true → noAdjWS l = true →
    collapseWS l = l
  | [], _, _ => rfl
  | c :: cs, hall, hadj => by
    have hall2 : (!isJsWS c || c == ' ') = true ∧ allSpaceWS cs = true := by
      simpa [allSpaceWS] using hall
    by_cases h : isJsWS c
    · have hc : c = ' ' := by
        have := hall2.1
        simp [h] at this
        exact this
      cases cs with
      | nil => simp [collapseWS, h, hc]
      | cons d ds =>
        have hd : isJsWS d = false := by
          have := hadj
          simp [noAdjWS, h] at this
          exact this.1
        rw [show collapseWS (c :: d :: ds) = ' ' :: collapseWS (d :: ds) by
          simp [collapseWS, h, hd]]
        rw [collapseWS_eq_self (d :: ds) hall2.2 (noAdjWS_tail hadj), hc]
    · have h0 : isJsWS c = false := by simpa using h
      rw [collapseWS_cons_not h0]
      rw [collapseWS_eq_self cs hall2.2 (noAdjWS_tail hadj)]

theorem collapseNL_cons_not {d : Char} (h : isNL d = false) (ds : Str) :
    collapseNL (d :: ds) = d :: collapseNL ds := by
  simp [collapseNL, h]

theorem collapseNL_eq_self : ∀ l : Str, (∀ c ∈ l, isNL c = false) → collapseNL l = l
  | [], _ => rfl
  | c :: cs, h => by
    have hc : isNL c = false := h c (List.mem_cons_self c cs)
    have ih := collapseNL_eq_self cs (fun x hx => h x (List.mem_cons_of_mem _ hx))
    rw [collapseNL_cons_not hc, ih]

theorem allSpaceWS_no_nl {l : Str} (hall : allSpaceWS l = true) :
    ∀ c ∈ l, isNL c = false := by
  intro c hc
  have h := List.all_eq_true.mp hall c hc
  by_contra hnl
  have hnl2 : isNL c = true := by revert hnl; cases isNL c <;> simp
  have hceq : c = '\n' := by simpa [isNL] using hnl2
  subst hceq
  revert h
  decide

theorem noAdjWS_pair {a b : Char} {t : Str} (h : noAdjWS (a :: b :: t) = true) :
    (isJsWS a && isJsWS b) = false := by
  simp only [noAdjWS, Bool.and_eq_true, Bool.not_eq_true'] at h
  exact h.1

theorem headNonWS_dropWhile (l : Str) :
    headNonWS (l.dropWhile fun c => isJsWS c) = true := by
  induction l with
  | nil => rfl
  | cons c cs ih =>
    by_cases h : isJsWS c
    · simpa [List.dropWhile_cons, h] using ih
    · simp [List.dropWhile_cons, h, headNonWS]

theorem allSpaceWS_dropWhile {l : Str} (hall : allSpaceWS l = true) :
    allSpaceWS (l.dropWhile fun c => isJsWS c) = true := by
  induction l with
  | nil => exact hall
  | cons c cs ih =>
    have hall2 : (!isJsWS c || c == ' ') = true ∧ allSpaceWS cs = true := by
      simpa [allSpaceWS] using hall
    by_cases h : isJsWS c
    · simpa [List.dropWhile_cons, h] using ih hall2.2
    · simpa [List.dropWhile_cons, h] using hall

theorem noAdjWS_dropWhile {l : Str} (hadj : noAdjWS l = true) :
    noAdjWS (l.dropWhile fun c => isJsWS c) = true := by
  induction l with
  | nil => exact hadj
  | cons c cs ih =>
    by_cases h : isJsWS c
    · simpa [List.dropWhile_cons, h] using ih (noAdjWS_tail hadj)
    · simpa [List.dropWhile_cons, h] using hadj

theorem dropWhile_eq_self_of_headNonWS {l : Str} (h : headNonWS l = true) :
    (l.dropWhile fun c => isJsWS c) = l := by
  cases l with
  | nil => rfl
  | cons c cs =>
    have h0 : isJsWS c = false := by simpa [headNonWS] using h
    simp [List.dropWhile_cons, h0]

theorem trimEndWS_head_eq : ∀ {l : Str} {a : Char} {r : Str},
    trimEndWS l = a :: r → l.head? = some a := by
  intro l a r h
  cases l with
  | nil => simp [trimEndWS] at h
  | cons c cs =>
    rw [trimEndWS] at h
    cases htr : trimEndWS cs with
    | nil =>
      rw [htr] at h
      by_cases hc : isJsWS c
      · simp [hc] at h
      · simp [hc] at h
        simp [h.1]
    | cons b t =>
      rw [htr] at h
      have : c = a := by simpa using congrArg List.head? h
      simp [this]

theorem trimEndWS_lastNonWS : ∀ l : Str, lastNonWS (trimEndWS l) = true
  | [] => rfl
  | c :: cs => by
    rw [trimEndWS]
    cases htr : trimEndWS cs with
    | nil =>
      by_cases hc : isJsWS c <;> simp [hc, lastNonWS]
    | cons b t =>
      have ih := trimEndWS_lastNonWS cs
      rw [htr] at ih
      simpa [lastNonWS, List.getLast?_cons_cons] using ih

theorem trimEndWS_allSpace : ∀ {l : Str}, allSpaceWS l = true →
    allSpaceWS (trimEndWS l) = true
  | [], h => h
  | c :: cs, h => by
    have h2 : (!isJsWS c || c == ' ') = true ∧ allSpaceWS cs = true := by
      simpa [allSpaceWS] using h
    rw [trimEndWS]
    cases htr : trimEndWS cs with
    | nil =>
      by_cases hc : isJsWS c
      · simp [hc, allSpaceWS]
      · simp [allSpaceWS, hc, h2.1]
    | cons b t =>
      have ih := trimEndWS_allSpace h2.2
      rw [htr] at ih
      simpa [allSpaceWS, h2.1] using ih

theorem trimEndWS_noAdj : ∀ {l : Str}, noAdjWS l = true →
    noAdjWS (trimEndWS l) = true
  | [], h => h
  | c :: cs, h => by
    rw [trimEndWS]
    cases htr : trimEndWS cs with
    | nil =>
      by_cases hc : isJsWS c <;> simp [hc, noAdjWS]
    | cons b t =>
      have ih := trimEndWS_noAdj (noAdjWS_tail h)
      rw [htr] at ih
      have hb : cs.head? = some b := trimEndWS_head_eq htr
      cases cs with
      | nil => simp at hb
      | cons b2 cs2 =>
        have hb2 : b2 = b := by simpa using hb
        subst hb2
        exact noAdjWS_cons₂ (noAdjWS_pair h) ih

theorem trimEndWS_headNonWS : ∀ {l : Str}, headNonWS l = true →
    headNonWS (trimEndWS l) = true
  | [], h => h
  | c :: cs, h => by
    have hc : isJsWS c = false := by simpa [headNonWS] using h
    rw [trimEndWS]
    cases htr : trimEndWS cs with
    | nil => simp [hc, headNonWS]
    | cons b t => simp [headNonWS, hc]

theorem trimEndWS_eq_self : ∀ {l : Str}, lastNonWS l = true → trimEndWS l = l
  | [], _ => rfl
  | c :: cs, h => by
    cases cs with
    | nil =>
      have hc : isJsWS c = false := by simpa [lastNonWS] using h
      simp [trimEndWS, hc]
    | cons d ds =>
      have h2 : lastNonWS (d :: ds) = true := by
        simpa [lastNonWS, List.getLast?_cons_cons] using h
      have ih := trimEndWS_eq_self h2
      rw [trimEndWS, ih]

theorem wsNormal_cleanText (l : Str) : wsNormal (cleanText l) = true := by
  have hall := collapseWS_allSpace l
  have hadj := collapseWS_noAdj l
  have hnl : collapseNL (collapseWS l) = collapseWS l :=
    collapseNL_eq_self _ (allSpaceWS_no_nl hall)
  rw [cleanText, hnl, jsTrim]
  have h1 := trimEndWS_allSpace (allSpaceWS_dropWhile hall)
  have h2 := trimEndWS_noAdj (noAdjWS_dropWhile hadj)
  have h3 := trimEndWS_headNonWS (headNonWS_dropWhile (collapseWS l))
  have h4 := trimEndWS_lastNonWS ((collapseWS l).dropWhile fun c => isJsWS c)
  simp [wsNormal, h1, h2, h3, h4]

theorem cleanText_eq_self_of_wsNormal {l : Str} (h : wsNormal l = true) :
    cleanText l = l := by
  simp only [wsNormal, Bool.and_eq_true] at h
  obtain ⟨⟨⟨h1, h2⟩, h3⟩, h4⟩ := h
  rw [cleanText, collapseWS_eq_self l h1 h2,
    collapseNL_eq_self l (allSpaceWS_no_nl h1), jsTrim,
    dropWhile_eq_self_of_headNonWS h3, trimEndWS_eq_self h4]

/-- C9: the text normalizer cleanText is idempotent and total: normalizing
a second time returns the identical string, the function is defined for
every input string (it is a total Lean function), and the empty string
normalizes to the empty string. -/
theorem cleanText_idem_total (s : Str) :
    cleanText (cleanText s) = cleanText s ∧ cleanText ([] : Str) = [] :=
  ⟨cleanText_eq_self_of_wsNormal (wsNormal_cleanText s), rfl⟩

/-! The chunker: chunker.js lines 20-96. -/

/-- Helper for the JS String.prototype.split with the whitespace-run
regex: walks the string, emitting the accumulated token at the start of
each separator run. JS split of this kind produces an empty token before
a leading separator, after a trailing separator, and a single empty token
for the empty string. -/
def splitWSAux : Str → Str → Bool → List Str
  | [], acc, _ => [acc.reverse]
  | c :: cs, acc, inRun =>
    if isJsWS c then
      if inRun then splitWSAux cs [] true
      else acc.reverse :: splitWSAux cs [] true
    else splitWSAux cs (c :: acc) false

/-- chunker.js lines 20-22, splitIntoWords: text.split on a
whitespace-run regex. -/
def splitIntoWords (l : Str) : List Str := splitWSAux l [] false

/-- Normalization of a (possibly negative) JS index by
Array.prototype.slice: negative indices count from the end, and the
result is clamped to [0, len]. -/
def jsSliceIdx (len : ℕ) (i : ℤ) : ℕ :=
  if i < 0 then ((len : ℤ) + i).toNat else min i.toNat len

/-- Array.prototype.slice(s, e): the elements with normalized indices in
the half-open range from s to e. -/
def jsSlice {α : Type} (l : List α) (s e : ℤ) : List α :=
  (l.take (jsSliceIdx l.length e)).drop (jsSliceIdx l.length s)

/-- chunker.js lines 31-45, the while loop of createOverlappingChunks,
with explicit fuel: running out of fuel yields none, and a JS run that
terminates is recovered by any sufficiently large fuel. The loop
variable start is a JS number that can go negative when overlap exceeds
chunkSize, so it is an integer here. The early break on
start >= words.length inside the loop body is subsumed by the re-checked
loop condition and does not change the result. -/
def chunksLoop (chunkSize overlap : ℕ) (words : List Str) :
    ℕ → ℤ → Option (List Str)
  | 0, start => if start < (words.length : ℤ) then none else some []
  | fuel + 1, start =>
    if start < (words.length : ℤ) then
      let e := min (start + (chunkSize : ℤ)) (words.length : ℤ)
      let chunk := List.intercalate [' '] (jsSlice words start e)
      match chunksLoop chunkSize overlap words fuel
          (start + ((chunkSize : ℤ) - (overlap : ℤ))) with
      | none => none
      | some rest => some (chunk :: rest)
    else some []

/-- chunker.js lines 31-45, createOverlappingChunks, run with fuel
words.length, which suffices for every valid configuration
(overlap < chunkSize, theorem chunksLoop_length). -/
def createOverlappingChunks (words : List Str) (chunkSize overlap : ℕ) :
    Option (List Str) :=
  chunksLoop chunkSize overlap words words.length 0

/-- chunker.js lines 52-57, validateChunks: keep only chunks whose word
count (JS split on whitespace) exceeds 5. -/
def validateChunks (chunks : List Str) : List Str :=
  chunks.filter fun chunk => 5 < (splitIntoWords chunk).length

/-- chunker.js lines 67-96, chunkPdfContent, starting from the raw text
already extracted from the PDF (readPdf is the external document text
source, outside this model). Source defaults: chunkSize 500, overlap 50.
Returns none exactly when the underlying loop does not terminate. -/
def chunkPdfContent (rawContent : Str) (chunkSize overlap : ℕ) :
    Option (List Str) :=
  (createOverlappingChunks (splitIntoWords (cleanText rawContent))
      chunkSize overlap).map validateChunks

/-- C2: with overlap >= chunkSize and a nonempty word array the window
start never advances past zero, so the chunking loop runs forever: no
amount of fuel makes it return. The source performs no configuration
validation at all, so an invalid configuration is neither rejected nor
terminating, contradicting the required rejection. -/
theorem chunksLoop_diverges (chunkSize overlap : ℕ) (words : List Str) :
    ∀ (fuel : ℕ) (start : ℤ), chunkSize ≤ overlap → words ≠ [] → start ≤ 0 →
      chunksLoop chunkSize overlap words fuel start = none
  | 0, start, _, hw, hs => by
    have hlen : 0 < words.length := List.length_pos.mpr hw
    have hlt : start < (words.length : ℤ) := by omega
    simp [chunksLoop, hlt]
  | fuel + 1, start, hco, hw, hs => by
    have hlen : 0 < words.length := List.length_pos.mpr hw
    have hlt : start < (words.length : ℤ) := by omega
    have hnext : start + ((chunkSize : ℤ) - (overlap : ℤ)) ≤ 0 := by omega
    have ih := chunksLoop_diverges chunkSize overlap words fuel _ hco hw hnext
    simp [chunksLoop, hlt, ih]

/-- Witness: at chunkSize = 1, overlap = 1 on the singleton word array
of the one-character word a, the loop exhausts any fuel. -/
theorem chunksLoop_diverges_witness :
    (1 ≤ 1 ∧ ([['a']] : List Str) ≠ [] ∧ (0 : ℤ) ≤ 0) ∧
      chunksLoop 1 1 [['a']] 5 0 = none :=
  ⟨⟨le_refl 1, by decide, le_refl 0⟩,
    chunksLoop_diverges 1 1 [['a']] 5 0 (le_refl 1) (by decide) (le_refl 0)⟩

theorem ceilDiv_step {m s : ℕ} (hs : 0 < s) (hm : 0 < m) :
    (m + s - 1) / s = (m - s + s - 1) / s + 1 := by
  rcases le_or_lt m s with h | h
  · have h1 : m - s = 0 := by omega
    rw [h1]
    have h2 : (0 + s - 1) / s = 0 := Nat.div_eq_of_lt (by omega)
    rw [h2]
    have h3 : m + s - 1 = (m - 1) + s := by omega
    rw [h3, Nat.add_div_right _ hs]
    have h4 : (m - 1) / s = 0 := Nat.div_eq_of_lt (by omega)
    omega
  · have h3 : m + s - 1 = (m - s + s - 1) + s := by omega
    rw [h3, Nat.add_div_right _ hs]

theorem chunksLoop_length (chunkSize overlap : ℕ) (words : List Str)
    (hvalid : overlap < chunkSize) :
    ∀ (fuel : ℕ) (start : ℤ), 0 ≤ start →
      ((words.length : ℤ) - start).toNat ≤ fuel →
      ∃ l, chunksLoop chunkSize overlap words fuel start = some l ∧
        l.length = (((words.length : ℤ) - start).toNat + (chunkSize - overlap) - 1) /
          (chunkSize - overlap)
  | 0, start, hs, hfuel => by
    have hlt : ¬ start < (words.length : ℤ) := by omega
    refine ⟨[], by simp [chunksLoop, hlt], ?_⟩
    have hm : ((words.length : ℤ) - start).toNat = 0 := by omega
    rw [hm]
    exact (Nat.div_eq_of_lt (by omega)).symm
  | fuel + 1, start, hs, hfuel => by
    by_cases hlt : start < (words.length : ℤ)
    · have hs1 : 0 < chunkSize - overlap := by omega
      have hnext0 : 0 ≤ start + ((chunkSize : ℤ) - (overlap : ℤ)) := by omega
      have hm1 : 0 < ((words.length : ℤ) - start).toNat := by omega
      have hfuel2 :
          ((words.length : ℤ) - (start + ((chunkSize : ℤ) - (overlap : ℤ)))).toNat ≤ fuel := by
        omega
      obtain ⟨l, hl, hlen⟩ :=
        chunksLoop_length chunkSize overlap words hvalid fuel _ hnext0 hfuel2
      refine ⟨List.intercalate [' ']
          (jsSlice words start (min (start + (chunkSize : ℤ)) (words.length : ℤ))) :: l,
        ?_, ?_⟩
      · simp [chunksLoop, hlt, hl]
      simp only [List.length_cons, hlen]
      have hmm : ((words.length : ℤ) - (start + ((chunkSize : ℤ) - (overlap : ℤ)))).toNat
          = ((words.length : ℤ) - start).toNat - (chunkSize - overlap) := by omega
      rw [hmm, ceilDiv_step hs1 hm1]
    · refine ⟨[], by simp [chunksLoop, hlt], ?_⟩
      have hm : ((words.length : ℤ) - start).toNat = 0 := by omega
      rw [hm]
      exact (Nat.div_eq_of_lt (by omega)).symm

/-- C4: for a valid configuration (overlap < chunkSize, hence stride
chunkSize - overlap positive), the chunker terminates and produces
exactly (N + stride - 1) / stride chunks before the minimum-length
filter, where N is the token count. This quotient is the ceiling of
N / stride for N > 0 and equals 0 for N = 0. -/
theorem createOverlappingChunks_count (words : List Str) (chunkSize overlap : ℕ)
    (hvalid : overlap < chunkSize) :
    ∃ l, createOverlappingChunks words chunkSize overlap = some l ∧
      l.length = (words.length + (chunkSize - overlap) - 1) / (chunkSize - overlap) := by
  obtain ⟨l, hl, hlen⟩ :=
    chunksLoop_length chunkSize overlap words hvalid words.length 0 (le_refl 0) (by omega)
  refine ⟨l, hl, ?_⟩
  simpa using hlen

/-- Witness: five words with chunkSize 2, overlap 1 (stride 1) give
ceil(5 / 1) = 5 pre-filter chunks. -/
theorem createOverlappingChunks_count_witness :
    1 < 2 ∧
      ∃ l, createOverlappingChunks [['a'], ['b'], ['c'], ['d'], ['e']] 2 1 = some l ∧
        l.length = (5 + (2 - 1) - 1) / (2 - 1) :=
  ⟨by decide, createOverlappingChunks_count [['a'], ['b'], ['c'], ['d'], ['e']] 2 1 (by decide)⟩

/-! Embeddings and retrieval: embeddings.js, retrieval.js,
EmbeddingService.js, ragService.ts. -/

/-- An embedding vector: JS number coordinates, modelled as rationals. -/
abbrev Vec := List ℚ

/-- The dot-product accumulation of the cosine loops: pairs the two
coordinate lists positionally. -/
def dotQ (a b : Vec) : ℚ := ((a.zip b).map fun p => p.1 * p.2).sum

/-- The squared-norm accumulation of the cosine loops. -/
def sumSq (a : Vec) : ℚ := (a.map fun x => x * x).sum

open Classical in
/-- retrieval.js lines 31-48: the cosine value once the dimension check
has passed. normA and normB are Math.sqrt of the accumulated squared
norms; the test on the square roots mirrors the JS test
normA === 0 || normB === 0. -/
noncomputable def scoreVal (a b : Vec) : ℝ :=
  let normA := Real.sqrt ((sumSq a : ℚ) : ℝ)
  let normB := Real.sqrt ((sumSq b : ℚ) : ℝ)
  if normA = 0 ∨ normB = 0 then 0 else ((dotQ a b : ℚ) : ℝ) / (normA * normB)

/-- retrieval.js lines 26-49, cosineSimilarity: throws when dimensions
differ, returns 0 when either norm is 0, else the cosine. -/
noncomputable def cosineSimilarity (vecA vecB : Vec) : Except Str ℝ :=
  if vecA.length ≠ vecB.length then
    .error "Vectors must have the same dimensions".toList
  else .ok (scoreVal vecA vecB)

/-- EmbeddingService.js lines 76-99 (the Docker-model embedding service):
the same computation as retrieval.js cosineSimilarity with a different
error message. -/
noncomputable def embeddingServiceCosineSimilarity (e1 e2 : Vec) : Except Str ℝ :=
  if e1.length ≠ e2.length then
    .error "Embedding vectors must have the same length".toList
  else .ok (scoreVal e1 e2)

/-- ragService.ts lines 11-16: cosineSimilarity with no dimension check
and no zero-norm guard. vecA.reduce reads vecB at the indices of vecA,
so a vecA longer than vecB reads undefined and the whole result is NaN;
when either magnitude is 0 the division yields NaN or an infinity. Both
non-finite float outcomes are modelled as none; a finite score is some.
The positional pairing of dotQ already restricts the dot product to the
indices of vecA when vecA is the shorter vector, as the JS reduce does. -/
noncomputable def ragServiceCosineSimilarity (vecA vecB : Vec) : Option ℝ :=
  if vecB.length < vecA.length then none
  else if sumSq vecA = 0 ∨ sumSq vecB = 0 then none
  else some (((dotQ vecA vecB : ℚ) : ℝ) /
    (Real.sqrt ((sumSq vecA : ℚ) : ℝ) * Real.sqrt ((sumSq vecB : ℚ) : ℝ)))

/-- embeddings.js lines 109-117: one record of the embedding store. The
timestamp field (new Date().toISOString()) depends on the external clock
and is omitted from the model. -/
structure StoreEntry where
  id : ℕ
  text : Str
  textPreview : Str
  embedding : Vec
  wordCount : ℕ
  charCount : ℕ

/-- retrieval.js lines 59-63: one similarity record of
performSimilaritySearch (index, chunk, similarity). -/
structure SimResult where
  index : ℕ
  chunk : StoreEntry
  similarity : ℝ

open Classical in
/-- Stable descending insertion of one record into an already ranked
list: the new record passes every record with a strictly smaller score
and stops at the first record with a score at least its own, so records
with equal scores keep their original relative order. -/
noncomputable def insertDesc (x : SimResult) : List SimResult → List SimResult
  | [] => [x]
  | y :: ys => if y.similarity < x.similarity then x :: y :: ys else y :: insertDesc x ys

/-- Left-to-right insertion pass over the input records. -/
noncomputable def sortInsertAll : List SimResult → List SimResult → List SimResult
  | acc, [] => acc
  | acc, x :: xs => sortInsertAll (insertDesc x acc) xs

/-- retrieval.js line 66: similarities.sort with comparator
(a, b) => b.similarity - a.similarity. Array.prototype.sort is required
by the language standard to be a stable sort with respect to the
comparator, and for a consistent comparator the stable descending result
is unique, so the stable insertion sort here denotes the same function. -/
noncomputable def jsSortDesc (l : List SimResult) : List SimResult := sortInsertAll [] l

/-- retrieval.js lines 58-70, performSimilaritySearch: map each store
entry to (index, chunk, similarity) — a throw inside the map aborts the
whole call — then sort by similarity descending (stable) and return
slice(0, topK). topK is a JS number (source default 3) that is never
validated, so it is an arbitrary integer here. -/
noncomputable def performSimilaritySearch (queryEmbedding : Vec)
    (embeddingStore : List StoreEntry) (topK : ℤ) : Except Str (List SimResult) := do
  let similarities ← embeddingStore.enum.mapM fun p =>
    (cosineSimilarity queryEmbedding p.2.embedding).map fun s =>
      { index := p.1, chunk := p.2, similarity := s }
  .ok (jsSlice (jsSortDesc similarities) 0 topK)

/-- retrieval.js lines 77-88, combineChunksIntoContext. The similarity
is rendered by toFixed(4); decimal rendering of a float is outside the
model and is abstracted as the fmt argument. -/
def combineChunksIntoContext (fmt : ℝ → Str) (retrievedChunks : List SimResult) : Str :=
  if retrievedChunks.length = 0 then "No relevant context found.".toList
  else
    List.intercalate "\n".toList <|
      retrievedChunks.enum.map fun p =>
        "[Source ".toList ++ (Nat.repr (p.1 + 1)).toList ++ "] (Similarity: ".toList ++
          fmt p.2.similarity ++ ")\n".toList ++ p.2.chunk.text ++ "\n".toList

/-- retrieval.js lines 16-18, preprocessQuery: cleanText then
toLowerCase (modelled on ASCII letters by Char.toLower). -/
def preprocessQuery (query : Str) : Str := (cleanText query).map Char.toLower

/-- embeddings.js line 13. -/
def EMBEDDING_DIMENSIONS : ℕ := 384

/-- embeddings.js line 14. -/
def MAX_BATCH_SIZE : ℕ := 32

/-- embeddings.js lines 64-96, generateBatchEmbeddings, parametrized by
the external embedding provider (generateSingleEmbedding wraps the
local Hugging Face model, an external collaborator): slice the chunk
list into consecutive batches of at most MAX_BATCH_SIZE, embed each
batch sequentially in input order, and abort everything at the first
failure. -/
def generateBatchEmbeddings (embed : Str → Except Str Vec) :
    List Str → Except Str (List Vec)
  | [] => .ok []
  | c :: rest => do
    let batchEmbeddings ← ((c :: rest).take MAX_BATCH_SIZE).mapM embed
    let more ← generateBatchEmbeddings embed ((c :: rest).drop MAX_BATCH_SIZE)
    .ok (batchEmbeddings ++ more)
termination_by l => l.length
decreasing_by simp [MAX_BATCH_SIZE]; omega

/-- embeddings.js lines 128-154, validateEmbeddings: an empty embeddings
array is rejected, then every embedding must have exactly
EMBEDDING_DIMENSIONS entries. The per-value finiteness check (NaN,
Infinity, non-number) cannot fire in this model, whose coordinates are
rationals, and is therefore always satisfied here. Returns true on
success. -/
def validateEmbeddings (embeddings : List Vec) : Except Str Bool :=
  if embeddings.length = 0 then .error "Embeddings array is empty or invalid".toList
  else do
    let _ ← embeddings.enum.mapM fun p =>
      if p.2.length ≠ EMBEDDING_DIMENSIONS then
        Except.error ("Embedding at index ".toList ++ (Nat.repr p.1).toList ++
          " has invalid dimensions: expected 384, got ".toList ++
          (Nat.repr p.2.length).toList)
      else Except.ok true
    .ok true

/-- embeddings.js lines 104-121, createEmbeddingStore: rejects a length
mismatch, then pairs each chunk with its embedding and derived metadata
(the timestamp is external and omitted). -/
def createEmbeddingStore (chunks : List Str) (embeddings : List Vec) :
    Except Str (List StoreEntry) :=
  if chunks.length ≠ embeddings.length then
    .error ("Chunks and embeddings count mismatch: ".toList ++
      (Nat.repr chunks.length).toList ++ " chunks, ".toList ++
      (Nat.repr embeddings.length).toList ++ " embeddings".toList)
  else
    .ok <| (chunks.zip embeddings).enum.map fun p =>
      { id := p.1
        text := p.2.1
        textPreview := if 100 < p.2.1.length then p.2.1.take 100 ++ "...".toList else p.2.1
        embedding := p.2.2
        wordCount := (splitIntoWords p.2.1).length
        charCount := p.2.1.length }

/-- embeddings.js lines 161-185, generateEmbeddingsForChunks: batch
embedding generation, validation, then store construction; any failure
propagates to the caller. -/
def generateEmbeddingsForChunks (embed : Str → Except Str Vec) (chunks : List Str) :
    Except Str (List StoreEntry) := do
  let embeddings ← generateBatchEmbeddings embed chunks
  let _ ← validateEmbeddings embeddings
  createEmbeddingStore chunks embeddings

theorem except_error_bind {ε α β : Type} (e : ε) (f : α → Except ε β) :
    (Except.error e >>= f : Except ε β) = Except.error e := rfl

theorem except_ok_bind {ε α β : Type} (a : α) (f : α → Except ε β) :
    (Except.ok a >>= f : Except ε β) = f a := rfl

theorem generateBatchEmbeddings_eq_mapM (embed : Str → Except Str Vec) :
    ∀ chunks : List Str, generateBatchEmbeddings embed chunks = chunks.mapM embed
  | [] => by rw [generateBatchEmbeddings, List.mapM_nil]; rfl
  | c :: rest => by
    rw [generateBatchEmbeddings]
    rw [generateBatchEmbeddings_eq_mapM embed ((c :: rest).drop MAX_BATCH_SIZE)]
    conv_rhs => rw [← List.take_append_drop MAX_BATCH_SIZE (c :: rest)]
    rw [List.mapM_append]
    rfl
termination_by chunks => chunks.length
decreasing_by simp [MAX_BATCH_SIZE]; omega

theorem mapM_ok_pointwise {ε α β : Type} (f : α → Except ε β) :
    ∀ {l : List α} {es : List β}, l.mapM f = .ok es →
      es.length = l.length ∧
      ∀ i (h1 : i < l.length) (h2 : i < es.length),
        f (l.get ⟨i, h1⟩) = .ok (es.get ⟨i, h2⟩) := by
  intro l
  induction l with
  | nil =>
    intro es h
    simp only [List.mapM_nil] at h
    have hes : es = [] := by
      have : ([] : List β) = es := by
        simpa [pure, Except.pure] using h
      exact this.symm
    subst hes
    exact ⟨rfl, fun i h1 _ => absurd h1 (Nat.not_lt_zero i)⟩
  | cons a t ih =>
    intro es h
    rw [List.mapM_cons] at h
    cases hfa : f a with
    | error e =>
      rw [hfa, except_error_bind] at h
      exact Except.noConfusion h
    | ok b =>
      rw [hfa, except_ok_bind] at h
      cases hmt : t.mapM f with
      | error e =>
        rw [hmt, except_error_bind] at h
        exact Except.noConfusion h
      | ok bs =>
        rw [hmt, except_ok_bind] at h
        have hes : b :: bs = es := by
          simpa [pure, Except.pure] using h
        subst hes
        obtain ⟨hlen, hpt⟩ := ih hmt
        refine ⟨by simp [hlen], ?_⟩
        intro i h1 h2
        cases i with
        | zero => simpa using hfa
        | succ n =>
          have h1n : n < t.length := by simpa using h1
          have h2n : n < bs.length := by simpa using h2
          simpa using hpt n h1n h2n

theorem mapM_error_of_mem {ε α β : Type} (f : α → Except ε β) :
    ∀ {l : List α} {x : α}, x ∈ l → (∃ e, f x = .error e) →
      ∃ msg, l.mapM f = .error msg := by
  intro l
  induction l with
  | nil => intro x hx _; exact absurd hx (List.not_mem_nil x)
  | cons a t ih =>
    rintro x hx ⟨e, he⟩
    rw [List.mapM_cons]
    cases hfa : f a with
    | error ea =>
      refine ⟨ea, ?_⟩
      rw [except_error_bind]
    | ok b =>
      rcases List.mem_cons.mp hx with rfl | hxt
      · rw [he] at hfa; exact Except.noConfusion hfa
      · obtain ⟨msg, hm⟩ := ih hxt ⟨e, he⟩
        refine ⟨msg, ?_⟩
        rw [except_ok_bind, hm, except_error_bind]

/-- C8: batch embedding slices the input into consecutive batches of at
most 32 texts (the shape of generateBatchEmbeddings), processes batches
in order and each batch sequentially in input order — which makes the
whole run semantically identical to embedding the inputs one by one in
order (mapM); on success the returned embeddings correspond one-to-one,
in input order, to the inputs; and a failing item makes the whole
operation fail with an error, with no partial result and no further
batch processed. -/
theorem generateBatchEmbeddings_spec (embed : Str → Except Str Vec) :
    (∀ chunks, generateBatchEmbeddings embed chunks = chunks.mapM embed) ∧
    (∀ chunks es, generateBatchEmbeddings embed chunks = .ok es →
      es.length = chunks.length ∧
      ∀ i (h1 : i < chunks.length) (h2 : i < es.length),
        embed (chunks.get ⟨i, h1⟩) = .ok (es.get ⟨i, h2⟩)) ∧
    (∀ chunks x, x ∈ chunks → (∃ e, embed x = .error e) →
      ∃ msg, generateBatchEmbeddings embed chunks = .error msg) := by
  refine ⟨generateBatchEmbeddings_eq_mapM embed, ?_, ?_⟩
  · intro chunks es h
    rw [generateBatchEmbeddings_eq_mapM embed chunks] at h
    exact mapM_ok_pointwise embed h
  · intro chunks x hx he
    rw [generateBatchEmbeddings_eq_mapM embed chunks]
    exact mapM_error_of_mem embed hx he

/-- Embedding stub used in witnesses: fails exactly on the
one-character text x. -/
def wEmbed : Str → Except Str Vec := fun s =>
  if s = ['x'] then .error ['e'] else .ok [1]

/-- Witness: with the stub provider that fails on the text x, a chunk
list containing x makes the whole batch run fail. -/
theorem generateBatchEmbeddings_spec_witness :
    (['x'] : Str) ∈ ([['a'], ['x']] : List Str) ∧ (∃ e, wEmbed ['x'] = .error e) ∧
      ∃ msg, generateBatchEmbeddings wEmbed [['a'], ['x']] = .error msg :=
  ⟨by simp, ⟨['e'], rfl⟩,
    (generateBatchEmbeddings_spec wEmbed).2.2 [['a'], ['x']] ['x'] (by simp) ⟨['e'], rfl⟩⟩

/-! C5, C6: behavior of the three cosine-similarity implementations. -/

theorem scoreVal_zero {a b : Vec} (hz : sumSq a = 0 ∨ sumSq b = 0) :
    scoreVal a b = 0 := by
  rcases hz with h | h
  · simp [scoreVal, h]
  · simp [scoreVal, h]

/-- C5, counterexample: the ragService.ts implementation has no zero-norm
guard, so on the pair of zero vectors its division produces NaN (a
non-finite value, modelled as none) instead of the claimed 0. -/
theorem ragService_zero_norm_nan :
    ragServiceCosineSimilarity [0] [0] = none := by
  rw [ragServiceCosineSimilarity]
  rw [if_neg (by norm_num), if_pos (by norm_num [sumSq])]

/-- C5 (amended): the two cosine implementations that guard the zero
norm — retrieval.js cosineSimilarity and EmbeddingService
cosineSimilarity — return 0 (not NaN, not an error) whenever either
input vector has squared norm 0 and the dimension check passes; the
ragService.ts implementation has no such guard and yields a non-finite
value (none) at the pair of zero vectors instead. -/
theorem cosine_zero_norm_convention (a b : Vec) (hlen : a.length = b.length)
    (hz : sumSq a = 0 ∨ sumSq b = 0) :
    cosineSimilarity a b = .ok 0 ∧ embeddingServiceCosineSimilarity a b = .ok 0 ∧
      ragServiceCosineSimilarity [0] [0] = none := by
  refine ⟨?_, ?_, ?_⟩
  · rw [cosineSimilarity, if_neg (by omega), scoreVal_zero hz]
  · rw [embeddingServiceCosineSimilarity, if_neg (by omega), scoreVal_zero hz]
  · rw [ragServiceCosineSimilarity]
    rw [if_neg (by norm_num), if_pos (by norm_num [sumSq])]

/-- Witness for the zero-norm convention at the pair of
one-dimensional zero vectors. -/
theorem cosine_zero_norm_convention_witness :
    (([0] : Vec).length = ([0] : Vec).length ∧
        (sumSq [0] = 0 ∨ sumSq ([0] : Vec) = 0)) ∧
      cosineSimilarity [0] [0] = .ok 0 ∧
        embeddingServiceCosineSimilarity [0] [0] = .ok 0 ∧
        ragServiceCosineSimilarity [0] [0] = none :=
  ⟨⟨rfl, Or.inl (by norm_num [sumSq])⟩,
    cosine_zero_norm_convention [0] [0] rfl (Or.inl (by norm_num [sumSq]))⟩

/-- C6, counterexample: the ragService.ts cosine performs no dimension
check: on the unequal-length pair [1] and [1, 1] it silently computes a
finite numeric score over the shorter length instead of raising. -/
theorem ragService_silent_truncation :
    (ragServiceCosineSimilarity [1] [1, 1]).isSome = true := by
  rw [ragServiceCosineSimilarity]
  rw [if_neg (by norm_num), if_neg (by norm_num [sumSq])]
  rfl

/-- C6 (amended): the retrieval.js and EmbeddingService cosine
implementations raise on vectors of unequal length, and a ranking call
whose query length differs from some stored embedding length fails with
that error; the ragService.ts implementation, however, performs no
length check and silently returns a numeric score computed over the
shorter vector when the first argument is shorter. -/
theorem cosine_dimension_guard :
    (∀ a b : Vec, a.length ≠ b.length →
      cosineSimilarity a b = .error "Vectors must have the same dimensions".toList ∧
        embeddingServiceCosineSimilarity a b =
          .error "Embedding vectors must have the same length".toList) ∧
    (∀ (q : Vec) (store : List StoreEntry) (topK : ℤ),
      (∃ entry ∈ store, entry.embedding.length ≠ q.length) →
      ∃ msg, performSimilaritySearch q store topK = .error msg) ∧
    (ragServiceCosineSimilarity [1] [1, 1]).isSome = true := by
  refine ⟨?_, ?_, ?_⟩
  · intro a b hne
    exact ⟨by rw [cosineSimilarity, if_pos hne],
      by rw [embeddingServiceCosineSimilarity, if_pos hne]⟩
  · rintro q store topK ⟨entry, hmem, hne⟩
    obtain ⟨n, hget⟩ := List.mem_iff_get.mp hmem
    have hlen2 : n.1 < store.enum.length := by
      rw [List.enum_length]
      exact n.isLt
    have hgete : store.enum[n.1] = (n.1, entry) := by
      rw [List.getElem_enum]
      rw [← List.get_eq_getElem store n, hget]
    have hmem2 : (n.1, entry) ∈ store.enum := by
      rw [← hgete]
      exact List.getElem_mem hlen2
    have hferr : ∃ e,
        ((cosineSimilarity q entry.embedding).map fun s =>
          ({ index := n.1, chunk := entry, similarity := s } : SimResult)) = .error e := by
      refine ⟨"Vectors must have the same dimensions".toList, ?_⟩
      rw [cosineSimilarity, if_pos (fun h => hne h.symm)]
      rfl
    obtain ⟨msg, hmapm⟩ := mapM_error_of_mem
      (f := fun p : ℕ × StoreEntry => (cosineSimilarity q p.2.embedding).map fun s =>
        ({ index := p.1, chunk := p.2, similarity := s } : SimResult)) hmem2 hferr
    refine ⟨msg, ?_⟩
    rw [performSimilaritySearch]
    rw [hmapm, except_error_bind]
  · rw [ragServiceCosineSimilarity]
    rw [if_neg (by norm_num), if_neg (by norm_num [sumSq])]
    rfl

/-- Store entry used in witnesses: a two-dimensional embedding. -/
def wEntry : StoreEntry :=
  { id := 0, text := [], textPreview := [], embedding := [1, 1],
    wordCount := 0, charCount := 0 }

/-- Witness: the guarded implementations reject the unequal-length pair
[1] and [1, 1], and ranking with that mismatch fails. -/
theorem cosine_dimension_guard_witness :
    (([1] : Vec).length ≠ ([1, 1] : Vec).length ∧
      cosineSimilarity [1] [1, 1] = .error "Vectors must have the same dimensions".toList ∧
      embeddingServiceCosineSimilarity [1] [1, 1] =
        .error "Embedding vectors must have the same length".toList) ∧
    ((∃ entry ∈ [wEntry], entry.embedding.length ≠ ([1] : Vec).length) ∧
      ∃ msg, performSimilaritySearch [1] [wEntry] 3 = .error msg) :=
  ⟨⟨by decide, cosine_dimension_guard.1 [1] [1, 1] (by decide)⟩,
    ⟨⟨wEntry, List.mem_singleton_self wEntry, by decide⟩,
      cosine_dimension_guard.2.1 [1] [wEntry] 3
        ⟨wEntry, List.mem_singleton_self wEntry, by decide⟩⟩⟩

/-! C1: ingestion and query over the empty document. -/

theorem generateEmbeddingsForChunks_nil (embed : Str → Except Str Vec) :
    generateEmbeddingsForChunks embed [] =
      .error "Embeddings array is empty or invalid".toList := by
  have h : generateBatchEmbeddings embed [] = .ok [] := by
    rw [generateBatchEmbeddings]
  rw [generateEmbeddingsForChunks, h, except_ok_bind]
  rfl

theorem chunkPdfContent_nil : chunkPdfContent [] 500 50 = some [] := by rfl

theorem performSimilaritySearch_nil (q : Vec) (topK : ℤ) :
    performSimilaritySearch q [] topK = .ok [] := by
  rw [performSimilaritySearch]
  rw [List.enum_nil, List.mapM_nil]
  have h1 : jsSortDesc ([] : List SimResult) = [] := rfl
  have h2 : jsSlice ([] : List SimResult) 0 topK = [] := by
    simp [jsSlice]
  calc (do
      let similarities ← (pure [] : Except Str (List SimResult))
      Except.ok (jsSlice (jsSortDesc similarities) 0 topK))
      = Except.ok (jsSlice (jsSortDesc []) 0 topK) := rfl
    _ = Except.ok [] := by rw [h1, h2]

/-- C1, counterexample: chunking the empty document text does yield zero
chunks, but the embedding-store construction stage rejects the empty
chunk list: generateEmbeddingsForChunks validates the embeddings array
and throws on emptiness, so the ingestion pipeline raises instead of
producing a zero-entry store. The provider stub never gets called. -/
theorem empty_doc_ingestion_throws :
    chunkPdfContent [] 500 50 = some [] ∧
      generateEmbeddingsForChunks (fun _ => .ok []) [] =
        .error "Embeddings array is empty or invalid".toList :=
  ⟨chunkPdfContent_nil, generateEmbeddingsForChunks_nil _⟩

/-- C1 (amended): empty document text chunks to zero chunks; the store
construction stage then raises the empty-embeddings validation error (for
every provider) instead of building a zero-entry store; a similarity
query against an empty store nevertheless returns zero retrieved chunks
without error, and the context builder produces the no-relevant-context
placeholder on zero retrieved chunks. -/
theorem empty_doc_pipeline (embed : Str → Except Str Vec) (q : Vec) (topK : ℤ)
    (fmt : ℝ → Str) :
    chunkPdfContent [] 500 50 = some [] ∧
      generateEmbeddingsForChunks embed [] =
        .error "Embeddings array is empty or invalid".toList ∧
      performSimilaritySearch q [] topK = .ok [] ∧
      combineChunksIntoContext fmt [] = "No relevant context found.".toList :=
  ⟨chunkPdfContent_nil, generateEmbeddingsForChunks_nil embed,
    performSimilaritySearch_nil q topK, rfl⟩

/-- C10: the query is cleaned and lower-cased before it is embedded
(retrieval.js preprocessQuery, wired in by ragQuery), while document
chunks flow from chunkPdfContent into the embedding stage with no
lower-casing: a seven-word capitalized document chunks to itself with
its capital letters intact, while the same text as a query is
lower-cased by preprocessing. -/
theorem query_vs_document_preprocessing :
    (∀ q : Str, preprocessQuery q = (cleanText q).map Char.toLower) ∧
      chunkPdfContent "Alpha Beta Gamma Delta Epsilon Zeta Eta".toList 500 50 =
        some ["Alpha Beta Gamma Delta Epsilon Zeta Eta".toList] ∧
      preprocessQuery "Alpha Beta Gamma Delta Epsilon Zeta Eta".toList =
        "alpha beta gamma delta epsilon zeta eta".toList :=
  ⟨fun _ => rfl, by rfl, by rfl⟩

/-! C3, C7: ranking properties of performSimilaritySearch. -/

/-- The stable descending rank order: strictly larger score first, and
at equal scores the earlier store index first. -/
def RankedBefore (a b : SimResult) : Prop :=
  b.similarity < a.similarity ∨ (a.similarity = b.similarity ∧ a.index < b.index)

theorem insertDesc_perm (x : SimResult) : ∀ acc, List.Perm (insertDesc x acc) (x :: acc)
  | [] => List.Perm.refl _
  | y :: ys => by
    rw [insertDesc]
    by_cases h : y.similarity < x.similarity
    · rw [if_pos h]
    · rw [if_neg h]
      exact ((insertDesc_perm x ys).cons y).trans (List.Perm.swap x y ys)

theorem insertDesc_pairwise {x : SimResult} :
    ∀ (acc : List SimResult), acc.Pairwise RankedBefore →
      (∀ y ∈ acc, y.index < x.index) →
      (insertDesc x acc).Pairwise RankedBefore
  | [], _, _ => by simp [insertDesc, RankedBefore]
  | y :: ys, hp, hidx => by
    obtain ⟨hy, hys⟩ := List.pairwise_cons.mp hp
    rw [insertDesc]
    by_cases h : y.similarity < x.similarity
    · rw [if_pos h]
      refine List.Pairwise.cons ?_ hp
      intro z hz
      rcases List.mem_cons.mp hz with rfl | hzys
      · exact Or.inl h
      · rcases hy z hzys with hlt | ⟨heq, _⟩
        · exact Or.inl (lt_trans hlt h)
        · exact Or.inl (heq ▸ h)
    · rw [if_neg h]
      have hrec := insertDesc_pairwise ys hys fun z hz => hidx z (List.mem_cons_of_mem y hz)
      refine List.Pairwise.cons ?_ hrec
      intro z hz
      have hz2 : z = x ∨ z ∈ ys := by
        have hm := (insertDesc_perm x ys).mem_iff.mp hz
        simpa using hm
      rcases hz2 with rfl | hzys
      · rcases lt_or_eq_of_le (not_lt.mp h) with hlt | heq
        · exact Or.inl hlt
        · exact Or.inr ⟨heq.symm, hidx y (List.mem_cons_self y ys)⟩
      · exact hy z hzys

theorem sortInsertAll_perm : ∀ (l acc : List SimResult), List.Perm (sortInsertAll acc l) (acc ++ l)
  | [], acc => by rw [sortInsertAll]; simp
  | x :: xs, acc => by
    rw [sortInsertAll]
    refine ((sortInsertAll_perm xs (insertDesc x acc)).trans ?_)
    refine (((insertDesc_perm x acc).append_right xs).trans ?_)
    exact List.perm_middle.symm

theorem sortInsertAll_pairwise :
    ∀ (l acc : List SimResult), acc.Pairwise RankedBefore →
      (∀ y ∈ acc, ∀ x ∈ l, y.index < x.index) →
      l.Pairwise (fun a b => a.index < b.index) →
      (sortInsertAll acc l).Pairwise RankedBefore
  | [], _, hacc, _, _ => by rw [sortInsertAll]; exact hacc
  | x :: xs, acc, hacc, hcross, hl => by
    rw [sortInsertAll]
    obtain ⟨hx, hxs⟩ := List.pairwise_cons.mp hl
    refine sortInsertAll_pairwise xs (insertDesc x acc) ?_ ?_ hxs
    · exact insertDesc_pairwise acc hacc fun y hy => hcross y hy x (List.mem_cons_self x xs)
    · intro y hy x2 hx2
      have hy2 : y = x ∨ y ∈ acc := by
        have hm := (insertDesc_perm x acc).mem_iff.mp hy
        simpa using hm
      rcases hy2 with rfl | hyacc
      · exact hx x2 hx2
      · exact hcross y hyacc x2 (List.mem_cons_of_mem x hx2)

theorem jsSortDesc_perm (l : List SimResult) : List.Perm (jsSortDesc l) l := by
  have h := sortInsertAll_perm l []
  simpa [jsSortDesc] using h

theorem jsSortDesc_pairwise {l : List SimResult}
    (hl : l.Pairwise fun a b => a.index < b.index) :
    (jsSortDesc l).Pairwise RankedBefore :=
  sortInsertAll_pairwise l [] List.Pairwise.nil (by simp) hl

theorem enumFrom_pairwise {α : Type} : ∀ (n : ℕ) (l : List α),
    (List.enumFrom n l).Pairwise fun p q => p.1 < q.1
  | _, [] => List.Pairwise.nil
  | n, a :: t => by
    rw [List.enumFrom]
    refine List.Pairwise.cons ?_ (enumFrom_pairwise (n + 1) t)
    rintro ⟨i, x⟩ hq
    have h := List.mem_enumFrom hq
    show n < i
    omega

theorem enum_pairwise {α : Type} (l : List α) :
    l.enum.Pairwise fun p q => p.1 < q.1 := enumFrom_pairwise 0 l

theorem mapM_eq_map_of_ok {ε α β : Type} (f : α → Except ε β) (g : α → β) :
    ∀ {l : List α}, (∀ x ∈ l, f x = .ok (g x)) → l.mapM f = .ok (l.map g)
  | [], _ => by rw [List.mapM_nil]; rfl
  | a :: t, h => by
    have ha := h a (List.mem_cons_self a t)
    have ht := mapM_eq_map_of_ok f g fun x hx => h x (List.mem_cons_of_mem a hx)
    rw [List.mapM_cons, ha, except_ok_bind, ht, except_ok_bind]
    rfl

theorem jsSlice_zero {α : Type} (l : List α) (e : ℤ) :
    jsSlice l 0 e = l.take (jsSliceIdx l.length e) := by
  simp [jsSlice, jsSliceIdx]

/-- Under matching dimensions the similarity map cannot throw, and
performSimilaritySearch returns the sorted, sliced list of scored
records. -/
theorem performSimilaritySearch_ok (q : Vec) (store : List StoreEntry) (topK : ℤ)
    (hwf : ∀ e ∈ store, e.embedding.length = q.length) :
    performSimilaritySearch q store topK =
      .ok (jsSlice (jsSortDesc (store.enum.map fun p =>
        ⟨p.1, p.2, scoreVal q p.2.embedding⟩)) 0 topK) := by
  rw [performSimilaritySearch]
  have hmapm : store.enum.mapM (fun p : ℕ × StoreEntry =>
      (cosineSimilarity q p.2.embedding).map fun s =>
        ({ index := p.1, chunk := p.2, similarity := s } : SimResult)) =
      .ok (store.enum.map fun p =>
        (⟨p.1, p.2, scoreVal q p.2.embedding⟩ : SimResult)) := by
    apply mapM_eq_map_of_ok
    rintro ⟨i, e⟩ hp
    have h3 := (List.mem_enumFrom hp).2.2
    have hpmem : e ∈ store := by rw [h3]; exact List.getElem_mem _
    rw [cosineSimilarity, if_neg fun hne => hne (hwf e hpmem).symm]
    rfl
  rw [hmapm, except_ok_bind]

/-- Length and order facts about the ranked record list. -/
theorem jsSortDesc_enum_facts (q : Vec) (store : List StoreEntry) :
    (jsSortDesc (store.enum.map fun p =>
        (⟨p.1, p.2, scoreVal q p.2.embedding⟩ : SimResult))).length = store.length ∧
      (jsSortDesc (store.enum.map fun p =>
        (⟨p.1, p.2, scoreVal q p.2.embedding⟩ : SimResult))).Pairwise RankedBefore := by
  constructor
  · rw [(jsSortDesc_perm _).length_eq, List.length_map, List.enum_length]
  · apply jsSortDesc_pairwise
    rw [List.pairwise_map]
    exact enum_pairwise store

/-- C3: when every stored embedding has the dimension of the query
embedding and topK is a positive integer, the ranking succeeds and
returns records sorted by similarity in descending order, records with
equal scores keep their original insertion order (strictly increasing
store index), and the result count is min(topK, store size). -/
theorem performSimilaritySearch_ranking (q : Vec) (store : List StoreEntry) (topK : ℤ)
    (hk : 0 < topK) (hwf : ∀ e ∈ store, e.embedding.length = q.length) :
    ∃ res, performSimilaritySearch q store topK = .ok res ∧
      res.Pairwise (fun a b => b.similarity ≤ a.similarity) ∧
      res.Pairwise (fun a b => a.similarity = b.similarity → a.index < b.index) ∧
      res.length = min topK.toNat store.length := by
  obtain ⟨hlen, hsorted⟩ := jsSortDesc_enum_facts q store
  have hres : (jsSlice (jsSortDesc (store.enum.map fun p =>
      (⟨p.1, p.2, scoreVal q p.2.embedding⟩ : SimResult))) 0 topK).Pairwise RankedBefore := by
    rw [jsSlice_zero]
    exact List.Pairwise.sublist (List.take_sublist _ _) hsorted
  refine ⟨_, performSimilaritySearch_ok q store topK hwf, ?_, ?_, ?_⟩
  · refine hres.imp ?_
    intro a b hab
    rcases hab with h | ⟨h, _⟩
    · exact le_of_lt h
    · exact le_of_eq h.symm
  · refine hres.imp ?_
    intro a b hab
    rcases hab with h | ⟨_, h2⟩
    · intro heq
      exact absurd (heq ▸ h) (lt_irrefl _)
    · intro _
      exact h2
  · rw [jsSlice_zero, List.length_take, hlen]
    have hIdx : jsSliceIdx store.length topK = min topK.toNat store.length := by
      rw [jsSliceIdx, if_neg (by omega)]
    rw [hIdx]
    omega

/-- Witness: a one-entry store with a two-dimensional embedding ranked
against a two-dimensional query at topK = 1. -/
theorem performSimilaritySearch_ranking_witness :
    ((0 : ℤ) < 1 ∧ ∀ e ∈ [wEntry], e.embedding.length = ([1, 0] : Vec).length) ∧
      ∃ res, performSimilaritySearch [1, 0] [wEntry] 1 = .ok res ∧
        res.Pairwise (fun a b => b.similarity ≤ a.similarity) ∧
        res.Pairwise (fun a b => a.similarity = b.similarity → a.index < b.index) ∧
        res.length = min (1 : ℤ).toNat [wEntry].length :=
  ⟨⟨by decide, by decide⟩,
    performSimilaritySearch_ranking [1, 0] [wEntry] 1 (by decide) (by decide)⟩

/-- C7, counterexample: topK = 0 is not a positive integer, yet the
ranking performs no validation and returns an empty result instead of
raising a configuration error. -/
theorem topK_zero_not_rejected :
    performSimilaritySearch [] [] 0 = .ok [] :=
  performSimilaritySearch_nil [] 0

/-- C7 (amended): the ranking performs no topK validation at all: for
every integer topK (given matching dimensions) the call succeeds and
returns the JS slice(0, topK) of the ranked list — topK = 0 yields the
empty result rather than an error, a negative topK drops entries from
the end by JS slice semantics, and a positive topK at least the store
size returns all stored entries with no error and no padding. -/
theorem performSimilaritySearch_topK (q : Vec) (store : List StoreEntry) (topK : ℤ)
    (hwf : ∀ e ∈ store, e.embedding.length = q.length) :
    ∃ res, performSimilaritySearch q store topK = .ok res ∧
      res.length = min (jsSliceIdx store.length topK) store.length ∧
      (topK = 0 → res = []) ∧
      ((store.length : ℤ) ≤ topK → res.length = store.length) := by
  obtain ⟨hlen, _⟩ := jsSortDesc_enum_facts q store
  refine ⟨_, performSimilaritySearch_ok q store topK hwf, ?_, ?_, ?_⟩
  · rw [jsSlice_zero, List.length_take, hlen]
  · intro hk0
    subst hk0
    rw [jsSlice_zero]
    have h0 : jsSliceIdx (jsSortDesc (store.enum.map fun p =>
        (⟨p.1, p.2, scoreVal q p.2.embedding⟩ : SimResult))).length 0 = 0 := by
      rw [jsSliceIdx, if_neg (by omega)]
      omega
    rw [h0, List.take_zero]
  · intro hgt
    rw [jsSlice_zero, List.length_take, hlen]
    have hIdx : jsSliceIdx store.length topK = store.length := by
      rw [jsSliceIdx, if_neg (by omega)]
      omega
    rw [hIdx]
    omega

/-- Witness: topK = 5 over the one-entry store returns the single entry
without error or padding. -/
theorem performSimilaritySearch_topK_witness :
    (∀ e ∈ [wEntry], e.embedding.length = ([1, 0] : Vec).length) ∧
      ∃ res, performSimilaritySearch [1, 0] [wEntry] 5 = .ok res ∧
        res.length = min (jsSliceIdx [wEntry].length 5) [wEntry].length ∧
        ((5 : ℤ) = 0 → res = []) ∧
        (([wEntry].length : ℤ) ≤ 5 → res.length = [wEntry].length) :=
  ⟨by decide, performSimilaritySearch_topK [1, 0] [wEntry] 5 (by decide)⟩

end LlmReadPdf
